import Mathlib

set_option linter.unusedSectionVars false

/-!
Shallow embedding of `dag.py` (pedros/precedence-graph): a precedence graph built
from data-lineage records, with Bernstein parallel-safety checking, cycle
elimination, and greedy clustering of the topological order.

Python dicts are modelled as insertion-ordered association lists, Python sets of
artifacts as lists with membership-based insertion, raised exceptions as
`Except Err`, and the `while not is_directed_acyclic_graph(G)` loop as a
fuel-indexed iteration (the fuel `edge count + 1` is proved sufficient below).
-/

namespace PrecGraph

variable {α : Type} {β : Type} [DecidableEq α] [DecidableEq β]

/-- Errors raised by the Python code: `networkx.NetworkXUnfeasible('node(s) not in
graph')` in `bernstein` (the spec's `NotFound`), `NetworkXUnfeasible('Graph contains
a cycle')` in `topological_sort`, and `AssertionError` from the two asserts in
`clustering`. -/
inductive Err where
  | notFound
  | hasCycle
  | assertionFailed
deriving DecidableEq, Repr

/-- A `PrecedenceGraph` (a `networkx.DiGraph` subtype): node list in insertion
order, plus edges `(producer, consumer)` each carrying its `links` payload (the
Python set of artifacts, modelled as a duplicate-free insertion-ordered list). -/
structure Graph (α β : Type) where
  nodes : List α
  edges : List ((α × α) × List β)
deriving DecidableEq, Repr

/-- The edge pairs of the graph, without payloads. -/
def edgeKeys (g : Graph α β) : List (α × α) :=
  g.edges.map (·.1)

/-- Membership test `(t, s) in G.edges` / `G.has_edge(t, s)`. -/
def hasEdge (g : Graph α β) (t s : α) : Prop :=
  (t, s) ∈ edgeKeys g

instance (g : Graph α β) (t s : α) : Decidable (hasEdge g t s) := by
  unfold hasEdge; infer_instance

/-- The `links` payload of edge `(t, s)`, or `[]` when the edge is absent
(mirrors `G[t][s]['links']`, which the Python code only reads on present edges). -/
def linksOf (g : Graph α β) (t s : α) : List β :=
  ((g.edges.find? (fun e => decide (e.1 = (t, s)))).map (·.2)).getD []

/-- Append a node to the node list unless already present (networkx node dicts
keep insertion order and ignore re-insertion). -/
def addNode (ns : List α) (x : α) : List α :=
  if x ∈ ns then ns else ns ++ [x]

/-- `if G.has_edge(target, source): G[target][source]['links'].add(link)
else: G.add_edge(target, source, links={link})` from `from_lineage`. -/
def addEdgeLink (g : Graph α β) (t s : α) (k : β) : Graph α β :=
  if (t, s) ∈ edgeKeys g then
    ⟨g.nodes, g.edges.map (fun e =>
      if e.1 = (t, s) then (e.1, if k ∈ e.2 then e.2 else e.2 ++ [k]) else e)⟩
  else
    ⟨addNode (addNode g.nodes t) s, g.edges ++ [((t, s), [k])]⟩

/-- `list(self.predecessors(a))`: sources of edges into `a`. -/
def preds (g : Graph α β) (a : α) : List α :=
  (edgeKeys g).filterMap (fun e => if e.2 = a then some e.1 else none)

/-- `list(self.successors(a))`: targets of edges out of `a`. -/
def succs (g : Graph α β) (a : α) : List α :=
  (edgeKeys g).filterMap (fun e => if e.1 = a then some e.2 else none)

/-- The boolean value `bernstein` computes once both nodes are present:
`a_out ∩ b_in == set() and a_in ∩ b_out == set()` with
`x_in = predecessors(x) ∪ {x}` and `x_out = successors(x) ∪ {x}`
(the third Bernstein condition on shared outputs is commented out in the code). -/
def bernsteinB (g : Graph α β) (a b : α) : Bool :=
  let aIn := a :: preds g a
  let aOut := a :: succs g a
  let bIn := b :: preds g b
  let bOut := b :: succs g b
  (aOut.all (fun x => decide (x ∉ bIn))) && (aIn.all (fun x => decide (x ∉ bOut)))

/-- `PrecedenceGraph.bernstein`: raises `NetworkXUnfeasible` when either node is
absent (`if a not in self or b not in self`), otherwise returns the two-condition
check. -/
def bernstein (g : Graph α β) (a b : α) : Except Err Bool :=
  if a ∉ g.nodes ∨ b ∉ g.nodes then
    .error .notFound
  else
    .ok (bernsteinB g a b)

/-- One selection step of Kahn's algorithm: the first remaining node with no
incoming edge from a remaining node (models `networkx.topological_sort`'s
deterministic indegree bookkeeping; a node with a self-loop is never selectable). -/
def pickReady (E : List (α × α)) (rem : List α) : Option α :=
  rem.find? (fun x => E.all (fun e => !(decide (e.2 = x) && decide (e.1 ∈ rem))))

/-- Kahn's algorithm with explicit fuel: returns the emitted order and the
remaining (unschedulable) nodes.  Fuel `rem.length` always suffices since each
step removes one node. -/
def kahnAux (E : List (α × α)) : Nat → List α → List α × List α
  | 0, rem => ([], rem)
  | fuel + 1, rem =>
    match pickReady E rem with
    | none => ([], rem)
    | some x =>
      let r := kahnAux E fuel (rem.erase x)
      (x :: r.1, r.2)

/-- Run Kahn's algorithm over the whole graph. -/
def topoPair (g : Graph α β) : List α × List α :=
  kahnAux (edgeKeys g) g.nodes.length g.nodes

/-- `networkx.is_directed_acyclic_graph`: the topological sort consumes every node. -/
def isDag (g : Graph α β) : Bool :=
  (topoPair g).2.isEmpty

/-- `networkx.topological_sort`: the full order, or `NetworkXUnfeasible` on a
cyclic graph. -/
def topologicalSort (g : Graph α β) : Except Err (List α) :=
  if (topoPair g).2.isEmpty then .ok (topoPair g).1 else .error .hasCycle

/-- `_window(seq, 2)`: consecutive pairs of a sequence; empty for sequences of
fewer than two elements. -/
def window2 : List α → List (α × α)
  | x :: y :: rest => (x, y) :: window2 (y :: rest)
  | _ => []

/-- One iteration of the `clustering` scan over a window pair `(u, v)`,
propagating the exception `bernstein` may raise. -/
def clusterStep (g : Graph α β) (clusters : List (List α)) (uv : α × α) :
    Except Err (List (List α)) := do
  let safe ← bernstein g uv.1 uv.2
  if safe = false then
    if clusters = [] ∨ uv.1 ∉ clusters.getLastD [] then
      pure (clusters ++ [[uv.1]])
    else
      pure (clusters ++ [[uv.2]])
  else
    if clusters ≠ [] ∧ uv.1 ∈ clusters.getLastD [] then
      pure (clusters.dropLast ++ [clusters.getLastD [] ++ [uv.2]])
    else
      pure (clusters ++ [[uv.1, uv.2]])

/-- Pure version of `clusterStep`, used once both window nodes are known to be
in the graph (so `bernstein` cannot raise). -/
def stepB (g : Graph α β) (clusters : List (List α)) (uv : α × α) :
    List (List α) :=
  if bernsteinB g uv.1 uv.2 = false then
    if clusters = [] ∨ uv.1 ∉ clusters.getLastD [] then clusters ++ [[uv.1]]
    else clusters ++ [[uv.2]]
  else
    if clusters ≠ [] ∧ uv.1 ∈ clusters.getLastD [] then
      clusters.dropLast ++ [clusters.getLastD [] ++ [uv.2]]
    else clusters ++ [[uv.1, uv.2]]

/-- `PrecedenceGraph.clustering`: fold the scan over the windowed topological
order, then the two asserts (`len(clusters) <= len(self)` and total scheduled
element count `== len(self)`); a failed assert is an `AssertionError`. -/
def clustering (g : Graph α β) : Except Err (List (List α)) := do
  let order ← topologicalSort g
  let clusters ← (window2 order).foldlM (clusterStep g) []
  if clusters.length ≤ g.nodes.length then
    if (clusters.flatten).length = g.nodes.length then
      pure clusters
    else
      throw .assertionFailed
  else
    throw .assertionFailed

/-- `G.remove_edges_from(G.selfloop_edges())`. -/
def removeSelfLoops (g : Graph α β) : Graph α β :=
  ⟨g.nodes, g.edges.filter (fun e => decide (e.1.1 ≠ e.1.2))⟩

/-- `G.remove_edges_from(cycle)`: drop every edge whose pair occurs in the list. -/
def removeEdgesList (g : Graph α β) (es : List (α × α)) : Graph α β :=
  ⟨g.nodes, g.edges.filter (fun e => decide (e.1 ∉ es))⟩

/-- The first edge `(u, v)` into `v` whose source is still in `rem`, giving the
predecessor `u` (the step of the cycle search). -/
def predStep (E : List (α × α)) (rem : List α) (v : α) : Option α :=
  (E.find? (fun e => decide (e.2 = v) && decide (e.1 ∈ rem))).map (·.1)

/-- Walk predecessor steps inside the stuck node set, recording visited nodes
most-recent-first, until a node repeats; returns the node list of the discovered
cycle, newest first, ending at the repeated node. -/
def cycleWalk (E : List (α × α)) (rem : List α) : Nat → α → List α → Option (List α)
  | 0, _, _ => none
  | fuel + 1, v, visited =>
    match predStep E rem v with
    | none => none
    | some u =>
      if u ∈ v :: visited then
        some ((v :: visited).takeWhile (fun w => decide (w ≠ u)) ++ [u])
      else
        cycleWalk E rem fuel u (v :: visited)

/-- Close a node list into its cycle's edge list: consecutive pairs plus the
wrap-around pair. -/
def closeCycle : List α → List (α × α)
  | [] => []
  | c :: cs => (c :: cs).zip (cs ++ [c])

/-- Model of `networkx.cycles.find_cycle`: when the graph is cyclic, Kahn's
algorithm leaves a stuck node set in which every node has a predecessor, so a
predecessor walk from its first node discovers a cycle; returns that cycle's
edge list (empty exactly when the graph is acyclic). -/
def findCycle (g : Graph α β) : List (α × α) :=
  match (topoPair g).2 with
  | [] => []
  | v :: rest =>
    closeCycle ((cycleWalk (edgeKeys g) (v :: rest) (v :: rest).length v []).getD [])

/-- The `while not networkx.is_directed_acyclic_graph(G)` loop of `from_lineage`,
fuel-indexed: each iteration removes the edges of one discovered cycle. -/
def whileCycles : Nat → Graph α β → Option (Graph α β)
  | 0, _ => none
  | fuel + 1, g =>
    if isDag g then some g else whileCycles fuel (removeEdgesList g (findCycle g))

/-- The Cycle Eliminator tail of `from_lineage`: remove self-loops, then iterate
cycle removal.  Fuel `edge count + 1` is proved sufficient below, so the `getD`
fallback is never taken. -/
def sanitize (g : Graph α β) : Graph α β :=
  let g1 := removeSelfLoops g
  (whileCycles (g1.edges.length + 1) g1).getD g1

/-- `links[i]['inputs'].append(name)` on the artifact-indexed defaultdict:
register `n` as a reader (consumer) of artifact `k`. -/
def addReader (k : β) (n : α) (ls : List (β × List α × List α)) :
    List (β × List α × List α) :=
  if k ∈ ls.map (·.1) then
    ls.map (fun ent => if ent.1 = k then (ent.1, ent.2.1 ++ [n], ent.2.2) else ent)
  else
    ls ++ [(k, [n], [])]

/-- `links[o]['outputs'].append(name)`: register `n` as a writer (producer) of
artifact `k`. -/
def addWriter (k : β) (n : α) (ls : List (β × List α × List α)) :
    List (β × List α × List α) :=
  if k ∈ ls.map (·.1) then
    ls.map (fun ent => if ent.1 = k then (ent.1, ent.2.1, ent.2.2 ++ [n]) else ent)
  else
    ls ++ [(k, [], [n])]

/-- The first loop of `from_lineage`: build the artifact-indexed table of reader
and writer task lists from the records `(name, inputs, outputs)`. -/
def collectLinks (records : List (α × List β × List β)) :
    List (β × List α × List α) :=
  records.foldl
    (fun ls r =>
      r.2.2.foldl (fun ls' o => addWriter o r.1 ls')
        (r.2.1.foldl (fun ls' i => addReader i r.1 ls') ls))
    []

/-- The second loop of `from_lineage`: for every artifact entry, add an edge
`writer → reader` for every reader/writer pair, accumulating the artifact into
the edge's link set. -/
def buildGraph (ls : List (β × List α × List α)) : Graph α β :=
  ls.foldl
    (fun g ent =>
      ent.2.1.foldl
        (fun g' source =>
          ent.2.2.foldl (fun g'' target => addEdgeLink g'' target source ent.1) g')
        g)
    ⟨[], []⟩

/-- The Lineage Aggregator: the raw, possibly cyclic graph `from_lineage` builds
before self-loop and cycle removal. -/
def rawGraph (records : List (α × List β × List β)) : Graph α β :=
  buildGraph (collectLinks records)

/-- `from_lineage`: aggregate the lineage records, then remove self-loops and
iteratively remove cycles until the graph is acyclic. -/
def from_lineage (records : List (α × List β × List β)) : Graph α β :=
  sanitize (rawGraph records)

/-- The lineage records of the spec's aggregation scenario (and of
`PrecedenceGraphTest.test_lineage`). -/
def lineageRecords : List (String × List Nat × List Nat) :=
  [("a", [1, 2, 3], [4, 5, 6]), ("b", [4, 5, 6], []), ("c", [5], [])]

/-- The same records in a different order, for the iteration-order claim. -/
def lineageRecordsRev : List (String × List Nat × List Nat) :=
  [("c", [5], []), ("b", [4, 5, 6], []), ("a", [1, 2, 3], [4, 5, 6])]

/-- A two-node chain `a → b`. -/
def chainTwo : Graph String Nat :=
  ⟨["a", "b"], [(("a", "b"), [1])]⟩

/-- A single node with no edges. -/
def singleNode : Graph String Nat :=
  ⟨["x"], []⟩

/-- The empty graph. -/
def emptyGraph : Graph String Nat :=
  ⟨[], []⟩

/-- Two nodes sharing only a downstream consumer: `a → c` and `b → c`. -/
def sharedConsumer : Graph String Nat :=
  ⟨["a", "b", "c"], [(("a", "c"), [1]), (("b", "c"), [2])]⟩

/-- Two mutually dependent nodes: the cycle `a → b → a`. -/
def twoCycle : Graph String Nat :=
  ⟨["a", "b"], [(("a", "b"), [1]), (("b", "a"), [2])]⟩

/-- Two nodes with no edges at all. -/
def twoFree : Graph String Nat :=
  ⟨["a", "b"], []⟩

/-- The step relation of the directed graph: `x → y` is an edge. -/
def edgeRel (g : Graph α β) (x y : α) : Prop :=
  (x, y) ∈ edgeKeys g

/-- Well-formedness maintained by every graph the code builds: the node list is
duplicate-free and every edge endpoint is a node. -/
def WellFormed (g : Graph α β) : Prop :=
  g.nodes.Nodup ∧ ∀ e ∈ edgeKeys g, e.1 ∈ g.nodes ∧ e.2 ∈ g.nodes

theorem pickReady_mem {E : List (α × α)} {rem : List α} {x : α}
    (h : pickReady E rem = some x) : x ∈ rem :=
  List.mem_of_find?_eq_some h

theorem pickReady_spec {E : List (α × α)} {rem : List α} {x : α}
    (h : pickReady E rem = some x) : ∀ e ∈ E, e.2 = x → e.1 ∉ rem := by
  have hp := List.find?_some h
  intro e he hex hmem
  simp only [List.all_eq_true] at hp
  have h2 := hp e he
  simp [hex, hmem] at h2

theorem pickReady_none {E : List (α × α)} {rem : List α}
    (h : pickReady E rem = none) : ∀ x ∈ rem, ∃ e ∈ E, e.2 = x ∧ e.1 ∈ rem := by
  intro x hx
  have h1 := List.find?_eq_none.mp h x hx
  simp only [Bool.not_eq_true, List.all_eq_false, Bool.not_eq_true', Bool.not_eq_false,
    Bool.and_eq_true, decide_eq_true_eq] at h1
  exact h1

theorem kahnAux_perm (E : List (α × α)) :
    ∀ (fuel : Nat) (rem : List α),
      List.Perm ((kahnAux E fuel rem).1 ++ (kahnAux E fuel rem).2) rem
  | 0, rem => by simp [kahnAux]
  | fuel + 1, rem => by
    unfold kahnAux
    cases h : pickReady E rem with
    | none => simp
    | some x =>
      have hx : x ∈ rem := pickReady_mem h
      simp only [List.cons_append]
      exact ((kahnAux_perm E fuel (rem.erase x)).cons x).trans
        (List.perm_cons_erase hx).symm

theorem kahnAux_sorted (E : List (α × α)) :
    ∀ (fuel : Nat) (rem : List α), rem.Nodup →
      ∀ e ∈ E, ∀ l1 l2, (kahnAux E fuel rem).1 = l1 ++ e.2 :: l2 →
        e.1 ∈ l1 ∨ e.1 ∉ rem
  | 0, rem, _, e, _, l1, l2, hsplit => by simp [kahnAux] at hsplit
  | fuel + 1, rem, hnd, e, he, l1, l2, hsplit => by
    rw [kahnAux] at hsplit
    cases h : pickReady E rem with
    | none => rw [h] at hsplit; simp at hsplit
    | some x =>
      rw [h] at hsplit
      simp only at hsplit
      cases l1 with
      | nil =>
        simp only [List.nil_append, List.cons.injEq] at hsplit
        exact Or.inr (pickReady_spec h e he hsplit.1.symm)
      | cons y l1' =>
        simp only [List.cons_append, List.cons.injEq] at hsplit
        obtain ⟨hxy, hrest⟩ := hsplit
        rcases kahnAux_sorted E fuel (rem.erase x) (hnd.erase x) e he l1' l2 hrest with
          hin | hout
        · exact Or.inl (List.mem_cons_of_mem _ hin)
        · by_cases hex : e.1 = x
          · refine Or.inl ?_
            rw [hex, hxy]
            exact List.mem_cons_self _ _
          · exact Or.inr (fun hmem => hout ((List.mem_erase_of_ne hex).mpr hmem))

theorem kahnAux_stuck (E : List (α × α)) :
    ∀ (fuel : Nat) (rem : List α), rem.length ≤ fuel →
      (kahnAux E fuel rem).2 = [] ∨ pickReady E (kahnAux E fuel rem).2 = none
  | 0, rem, h => by
    have : rem = [] := List.eq_nil_of_length_eq_zero (Nat.le_zero.mp h)
    subst this; simp [kahnAux]
  | fuel + 1, rem, h => by
    rw [kahnAux]
    cases hp : pickReady E rem with
    | none => exact Or.inr hp
    | some x =>
      simp only
      apply kahnAux_stuck E fuel (rem.erase x)
      have hx : x ∈ rem := pickReady_mem hp
      have := List.length_erase_of_mem hx
      omega

theorem indexOf_lt_of_split {u v : α} :
    ∀ (l1 l2 : List α), (l1 ++ v :: l2).Nodup → u ∈ l1 →
      (l1 ++ v :: l2).indexOf u < (l1 ++ v :: l2).indexOf v
  | [], _, _, hu => by simp at hu
  | a :: l1', l2, hnd, hu => by
    rw [List.cons_append, List.nodup_cons] at hnd
    obtain ⟨ha, hnd'⟩ := hnd
    have hav : a ≠ v := fun h => ha (h ▸ List.mem_append_right _ (List.mem_cons_self _ _))
    rcases List.mem_cons.mp hu with hua | hua
    · subst hua
      simp only [List.cons_append, List.indexOf_cons, beq_self_eq_true, cond_true]
      rw [Bool.cond_neg (by simpa using hav)]
      omega
    · have hau : a ≠ u := fun h => ha (h ▸ List.mem_append_left _ hua)
      have ih := indexOf_lt_of_split l1' l2 hnd' hua
      simp only [List.cons_append, List.indexOf_cons]
      rw [Bool.cond_neg (by simpa using hau), Bool.cond_neg (by simpa using hav)]
      omega

theorem topoPair_snd_eq_nil {g : Graph α β} (hd : isDag g = true) :
    (topoPair g).2 = [] := by
  simpa [isDag, List.isEmpty_iff] using hd

theorem topoPair_perm (g : Graph α β) (hd : isDag g = true) :
    List.Perm (topoPair g).1 g.nodes := by
  have h := kahnAux_perm (edgeKeys g) g.nodes.length g.nodes
  rw [show kahnAux (edgeKeys g) g.nodes.length g.nodes = topoPair g from rfl,
    topoPair_snd_eq_nil hd, List.append_nil] at h
  exact h

theorem ord_edge_lt (g : Graph α β) (hwf : WellFormed g) (hd : isDag g = true)
    {x y : α} (hxy : edgeRel g x y) :
    (topoPair g).1.indexOf x < (topoPair g).1.indexOf y := by
  have hperm := topoPair_perm g hd
  have hnd : (topoPair g).1.Nodup := hperm.nodup_iff.mpr hwf.1
  have hy : y ∈ (topoPair g).1 := hperm.mem_iff.mpr (hwf.2 (x, y) hxy).2
  obtain ⟨l1, l2, hsplit⟩ := List.append_of_mem hy
  have hsorted := kahnAux_sorted (edgeKeys g) g.nodes.length g.nodes hwf.1
    (x, y) hxy l1 l2 hsplit
  rcases hsorted with hin | hout
  · rw [hsplit] at hnd ⊢
    exact indexOf_lt_of_split l1 l2 hnd hin
  · exact absurd (hwf.2 (x, y) hxy).1 hout

theorem isDag_acyclic (g : Graph α β) (hwf : WellFormed g) (hd : isDag g = true) :
    ∀ v, ¬ Relation.TransGen (edgeRel g) v v := by
  intro v hvv
  have key : ∀ x y, Relation.TransGen (edgeRel g) x y →
      (topoPair g).1.indexOf x < (topoPair g).1.indexOf y := by
    intro x y h
    induction h with
    | single h1 => exact ord_edge_lt g hwf hd h1
    | tail _ h2 ih => exact ih.trans (ord_edge_lt g hwf hd h2)
  exact absurd (key v v hvv) (lt_irrefl _)

theorem predStep_spec {E : List (α × α)} {rem : List α} {v u : α}
    (h : predStep E rem v = some u) : (u, v) ∈ E ∧ u ∈ rem := by
  unfold predStep at h
  cases hf : E.find? (fun e => decide (e.2 = v) && decide (e.1 ∈ rem)) with
  | none => rw [hf] at h; simp at h
  | some e =>
    rw [hf] at h
    simp only [Option.map_some', Option.some.injEq] at h
    have hp := List.find?_some hf
    simp only [Bool.and_eq_true, decide_eq_true_eq] at hp
    have he : e ∈ E := List.mem_of_find?_eq_some hf
    have : e = (u, v) := by
      cases e; simp only [Prod.mk.injEq]
      exact ⟨h ▸ rfl, hp.1⟩
    exact ⟨this ▸ he, h ▸ hp.2⟩

theorem predStep_isSome {E : List (α × α)} {rem : List α} {v : α}
    (h : ∃ e ∈ E, e.2 = v ∧ e.1 ∈ rem) : ∃ u, predStep E rem v = some u := by
  have : (E.find? (fun e => decide (e.2 = v) && decide (e.1 ∈ rem))).isSome = true := by
    rw [List.find?_isSome]
    obtain ⟨e, he, h1, h2⟩ := h
    exact ⟨e, he, by simp [h1, h2]⟩
  obtain ⟨e, he⟩ := Option.isSome_iff_exists.mp this
  exact ⟨e.1, by simp [predStep, he]⟩

theorem cycleWalk_isSome {E : List (α × α)} {rem : List α}
    (hstuck : ∀ x ∈ rem, ∃ e ∈ E, e.2 = x ∧ e.1 ∈ rem) :
    ∀ (fuel : Nat) (v : α) (visited : List α),
      (v :: visited).Nodup → (∀ w ∈ v :: visited, w ∈ rem) →
      rem.length < fuel + (v :: visited).length →
      (cycleWalk E rem fuel v visited).isSome = true
  | 0, v, visited, hnd, hsub, hlen => by
    have h1 : (v :: visited).length ≤ rem.length :=
      ((hnd.subperm (fun _ hw => hsub _ hw))).length_le
    omega
  | fuel + 1, v, visited, hnd, hsub, hlen => by
    obtain ⟨u, hu⟩ := predStep_isSome (hstuck v (hsub v (List.mem_cons_self _ _)))
    rw [cycleWalk, hu]
    simp only
    by_cases hmem : u ∈ v :: visited
    · rw [if_pos hmem]; rfl
    · rw [if_neg hmem]
      apply cycleWalk_isSome hstuck fuel u (v :: visited)
      · exact List.nodup_cons.mpr ⟨hmem, hnd⟩
      · intro w hw
        rcases List.mem_cons.mp hw with hw | hw
        · exact hw ▸ (predStep_spec hu).2
        · exact hsub w hw
      · simp only [List.length_cons] at hlen ⊢
        omega

theorem takeWhile_ne_split {u : α} :
    ∀ (l : List α), u ∈ l →
      ∃ rest, l = l.takeWhile (fun w => decide (w ≠ u)) ++ u :: rest
  | [], hu => absurd hu (List.not_mem_nil u)
  | a :: l', hu => by
    by_cases hau : a = u
    · subst hau
      refine ⟨l', ?_⟩
      simp [List.takeWhile_cons]
    · rcases List.mem_cons.mp hu with h | h
      · exact absurd h.symm hau
      · obtain ⟨rest, hrest⟩ := takeWhile_ne_split l' h
        refine ⟨rest, ?_⟩
        have hpa : decide (a ≠ u) = true := by simp [hau]
        simp only [List.takeWhile_cons, hpa, if_true]
        rw [List.cons_append, ← hrest]

theorem closeCycle_zip_mem {R : α → α → Prop} :
    ∀ (l : List α) (c0 z : α), List.Chain' R (c0 :: l) →
      R ((c0 :: l).getLast (List.cons_ne_nil c0 l)) z →
      ∀ p ∈ (c0 :: l).zip (l ++ [z]), R p.1 p.2
  | [], c0, z, _, hlast, p, hp => by
    simp only [List.getLast_singleton] at hlast
    simp only [List.nil_append, List.zip_cons_cons, List.zip_nil_right,
      List.mem_singleton] at hp
    subst hp; exact hlast
  | c1 :: l', c0, z, hchain, hlast, p, hp => by
    rw [List.chain'_cons] at hchain
    simp only [List.cons_append, List.zip_cons_cons, List.mem_cons] at hp
    rcases hp with hp | hp
    · subst hp; exact hchain.1
    · refine closeCycle_zip_mem l' c1 z hchain.2 ?_ p hp
      rwa [List.getLast_cons (List.cons_ne_nil c1 l')] at hlast

theorem closeCycle_mem {R : α → α → Prop} {cs : List α}
    (hchain : List.Chain' R cs)
    (hwrap : ∀ (h : cs ≠ []), R (cs.getLast h) (cs.head h)) :
    ∀ p ∈ closeCycle cs, R p.1 p.2 := by
  cases cs with
  | nil => simp [closeCycle]
  | cons c0 l =>
    intro p hp
    exact closeCycle_zip_mem l c0 c0 hchain
      (by simpa using hwrap (List.cons_ne_nil c0 l)) p (by simpa [closeCycle] using hp)

theorem cycleWalk_spec (E : List (α × α)) (rem : List α) :
    ∀ (fuel : Nat) (v : α) (visited : List α) (cs : List α),
      List.Chain' (fun x y => (x, y) ∈ E) (v :: visited) →
      cycleWalk E rem fuel v visited = some cs →
      cs ≠ [] ∧ ∀ p ∈ closeCycle cs, p ∈ E
  | 0, v, visited, cs, _, h => by simp [cycleWalk] at h
  | fuel + 1, v, visited, cs, hchain, h => by
    rw [cycleWalk] at h
    cases hu : predStep E rem v with
    | none => rw [hu] at h; simp at h
    | some u =>
      rw [hu] at h
      simp only at h
      have huv : (u, v) ∈ E := (predStep_spec hu).1
      by_cases hmem : u ∈ v :: visited
      · rw [if_pos hmem] at h
        obtain rfl : (v :: visited).takeWhile (fun w => decide (w ≠ u)) ++ [u] = cs :=
          Option.some.injEq _ _ ▸ h
        constructor
        · simp
        · obtain ⟨rest, hrest⟩ := takeWhile_ne_split (v :: visited) hmem
          set tk := (v :: visited).takeWhile (fun w => decide (w ≠ u)) with htk
          have hfull : v :: visited = (tk ++ [u]) ++ rest := by
            rw [hrest, List.append_assoc]; rfl
          have hchain2 : List.Chain' (fun x y => (x, y) ∈ E) (tk ++ [u]) :=
            (List.chain'_append.mp (hfull ▸ hchain)).1
          have hlast : (tk ++ [u]).getLast (by simp) = u := by
            simp [List.getLast_append]
          have hhead : (tk ++ [u]).head (by simp) = v := by
            cases htk2 : tk with
            | nil =>
              have : v :: visited = u :: rest := by rw [hfull, htk2]; rfl
              simp [htk2, (List.cons.injEq _ _ _ _ ▸ this).1.symm]
            | cons t ts =>
              have : v :: visited = t :: (ts ++ [u] ++ rest) := by
                rw [hfull, htk2]; rfl
              have hvt : v = t := (List.cons.injEq _ _ _ _ ▸ this).1
              simp [htk2, hvt]
          refine closeCycle_mem hchain2 ?_
          intro hne
          rw [hlast, hhead]
          exact huv
      · rw [if_neg hmem] at h
        exact cycleWalk_spec E rem fuel u (v :: visited) cs
          (List.chain'_cons.mpr ⟨huv, hchain⟩) h

theorem findCycle_spec (g : Graph α β) (hd : isDag g = false) :
    findCycle g ≠ [] ∧ ∀ p ∈ findCycle g, p ∈ edgeKeys g := by
  have hrem : (topoPair g).2 ≠ [] := by
    simpa [isDag, List.isEmpty_iff] using hd
  cases hr : (topoPair g).2 with
  | nil => exact absurd hr hrem
  | cons v rest =>
    have hstuck : ∀ x ∈ v :: rest,
        ∃ e ∈ edgeKeys g, e.2 = x ∧ e.1 ∈ v :: rest := by
      have := kahnAux_stuck (edgeKeys g) g.nodes.length g.nodes (le_refl _)
      rw [show kahnAux (edgeKeys g) g.nodes.length g.nodes = topoPair g from rfl, hr]
        at this
      rcases this with h | h
      · exact absurd h (by simp)
      · exact pickReady_none h
    have hsome := cycleWalk_isSome hstuck (v :: rest).length v []
      (by simp) (by simp) (by simp)
    obtain ⟨cs, hcs⟩ := Option.isSome_iff_exists.mp hsome
    have hfc : findCycle g = closeCycle cs := by
      unfold findCycle
      rw [hr]
      simp only [hcs, Option.getD_some]
    have hspec := cycleWalk_spec (edgeKeys g) (v :: rest)
      (v :: rest).length v [] cs (by simp) hcs
    rw [hfc]
    refine ⟨?_, hspec.2⟩
    cases cs with
    | nil => exact absurd rfl hspec.1
    | cons c cs' => simp [closeCycle]

theorem removeCycle_lt (g : Graph α β) (hd : isDag g = false) :
    (removeEdgesList g (findCycle g)).edges.length < g.edges.length := by
  obtain ⟨hne, hsub⟩ := findCycle_spec g hd
  obtain ⟨p, hp⟩ := List.exists_mem_of_ne_nil _ hne
  have hpE : p ∈ edgeKeys g := hsub p hp
  obtain ⟨ed, hed, hed1⟩ := List.mem_map.mp hpE
  unfold removeEdgesList
  rw [List.length_filter_lt_length_iff_exists]
  exact ⟨ed, hed, by simp [hed1, hp]⟩

theorem whileCycles_terminates :
    ∀ (fuel : Nat) (g : Graph α β), g.edges.length < fuel →
      ∃ g', whileCycles fuel g = some g' ∧ isDag g' = true
  | 0, g, h => absurd h (by omega)
  | fuel + 1, g, h => by
    rw [whileCycles]
    by_cases hd : isDag g = true
    · exact ⟨g, by rw [if_pos hd], hd⟩
    · rw [if_neg hd]
      have hlt := removeCycle_lt g (Bool.eq_false_iff.mpr hd)
      exact whileCycles_terminates fuel _ (by omega)

theorem sanitize_eq (g : Graph α β) :
    ∃ g', whileCycles ((removeSelfLoops g).edges.length + 1) (removeSelfLoops g) = some g' ∧
      sanitize g = g' ∧ isDag g' = true := by
  obtain ⟨g', h1, h2⟩ :=
    whileCycles_terminates ((removeSelfLoops g).edges.length + 1) (removeSelfLoops g)
      (Nat.lt_succ_self _)
  exact ⟨g', h1, by simp [sanitize, h1], h2⟩

theorem isDag_sanitize (g : Graph α β) : isDag (sanitize g) = true := by
  obtain ⟨g', _, h2, h3⟩ := sanitize_eq g
  rw [h2]; exact h3

theorem foldl_preserve {σ γ : Type _} {P : σ → Prop} {f : σ → γ → σ}
    (hf : ∀ s x, P s → P (f s x)) :
    ∀ (l : List γ) (s : σ), P s → P (l.foldl f s)
  | [], _, hg => hg
  | x :: l, s, hg => foldl_preserve hf l (f s x) (hf s x hg)

theorem mem_addNode {ns : List α} {x y : α} : y ∈ addNode ns x ↔ y ∈ ns ∨ y = x := by
  unfold addNode
  split
  · next h => exact ⟨Or.inl, fun hy => hy.elim id (fun he => he ▸ h)⟩
  · simp

theorem addNode_nodup {ns : List α} (h : ns.Nodup) (x : α) : (addNode ns x).Nodup := by
  unfold addNode
  split
  · exact h
  · next hx => simp [List.nodup_append, h, hx]

theorem edgeKeys_map_update (ns : List α) (es : List ((α × α) × List β)) (t s : α) (k : β) :
    edgeKeys (⟨ns, es.map (fun e =>
      if e.1 = (t, s) then (e.1, if k ∈ e.2 then e.2 else e.2 ++ [k]) else e)⟩ : Graph α β) =
      edgeKeys ⟨ns, es⟩ := by
  unfold edgeKeys
  simp only [List.map_map]
  apply List.map_congr_left
  intro e _
  by_cases h : e.1 = (t, s) <;> simp [h, Function.comp]

theorem wf_addEdgeLink {g : Graph α β} (h : WellFormed g) (t s : α) (k : β) :
    WellFormed (addEdgeLink g t s k) := by
  unfold addEdgeLink
  split
  · next hp =>
    refine ⟨h.1, ?_⟩
    rw [edgeKeys_map_update]
    exact h.2
  · next hp =>
    refine ⟨addNode_nodup (addNode_nodup h.1 t) s, ?_⟩
    intro e he
    have : edgeKeys (⟨addNode (addNode g.nodes t) s, g.edges ++ [((t, s), [k])]⟩ :
        Graph α β) = edgeKeys g ++ [(t, s)] := by
      unfold edgeKeys; simp
    rw [this] at he
    rcases List.mem_append.mp he with he | he
    · have := h.2 e he
      exact ⟨mem_addNode.mpr (Or.inl (mem_addNode.mpr (Or.inl this.1))),
        mem_addNode.mpr (Or.inl (mem_addNode.mpr (Or.inl this.2)))⟩
    · obtain rfl : e = (t, s) := by simpa using he
      exact ⟨mem_addNode.mpr (Or.inl (mem_addNode.mpr (Or.inr rfl))),
        mem_addNode.mpr (Or.inr rfl)⟩

theorem wf_filter_edges {g : Graph α β} (h : WellFormed g) (p : (α × α) × List β → Bool) :
    WellFormed (⟨g.nodes, g.edges.filter p⟩ : Graph α β) := by
  refine ⟨h.1, ?_⟩
  intro e he
  obtain ⟨ed, hed, hed1⟩ := List.mem_map.mp he
  exact h.2 e (hed1 ▸ List.mem_map.mpr ⟨ed, List.mem_of_mem_filter hed, rfl⟩)

theorem wf_removeSelfLoops {g : Graph α β} (h : WellFormed g) :
    WellFormed (removeSelfLoops g) :=
  wf_filter_edges h _

theorem wf_removeEdgesList {g : Graph α β} (h : WellFormed g) (es : List (α × α)) :
    WellFormed (removeEdgesList g es) :=
  wf_filter_edges h _

theorem wf_whileCycles :
    ∀ (fuel : Nat) (g g' : Graph α β), WellFormed g → whileCycles fuel g = some g' →
      WellFormed g'
  | 0, g, g', _, h => by simp [whileCycles] at h
  | fuel + 1, g, g', hwf, h => by
    rw [whileCycles] at h
    by_cases hd : isDag g = true
    · rw [if_pos hd] at h
      exact (Option.some.injEq _ _ ▸ h) ▸ hwf
    · rw [if_neg hd] at h
      exact wf_whileCycles fuel _ g' (wf_removeEdgesList hwf _) h

theorem wf_rawGraph (records : List (α × List β × List β)) :
    WellFormed (rawGraph records) := by
  unfold rawGraph buildGraph
  apply foldl_preserve (P := WellFormed)
  · intro g ent hg
    apply foldl_preserve (P := WellFormed)
    · intro g' source hg'
      apply foldl_preserve (P := WellFormed)
      · intro g'' target hg''
        exact wf_addEdgeLink hg'' target source ent.1
      · exact hg'
    · exact hg
  · exact ⟨List.nodup_nil, by simp [edgeKeys]⟩

theorem wf_sanitize {g : Graph α β} (h : WellFormed g) : WellFormed (sanitize g) := by
  obtain ⟨g', h1, h2, _⟩ := sanitize_eq g
  rw [h2]
  exact wf_whileCycles _ _ g' (wf_removeSelfLoops h) h1

theorem wf_from_lineage (records : List (α × List β × List β)) :
    WellFormed (from_lineage records) :=
  wf_sanitize (wf_rawGraph records)

theorem window2_mem :
    ∀ (l : List α) (p : α × α), p ∈ window2 l → p.1 ∈ l ∧ p.2 ∈ l
  | [], p, hp => by simp [window2] at hp
  | [x], p, hp => by simp [window2] at hp
  | x :: y :: rest, p, hp => by
    rw [show window2 (x :: y :: rest) = (x, y) :: window2 (y :: rest) from rfl] at hp
    rcases List.mem_cons.mp hp with hp | hp
    · subst hp
      exact ⟨List.mem_cons_self _ _, List.mem_cons_of_mem _ (List.mem_cons_self _ _)⟩
    · have := window2_mem (y :: rest) p hp
      exact ⟨List.mem_cons_of_mem _ this.1, List.mem_cons_of_mem _ this.2⟩

theorem clusterStep_eq_stepB (g : Graph α β) (C : List (List α)) (uv : α × α)
    (h1 : uv.1 ∈ g.nodes) (h2 : uv.2 ∈ g.nodes) :
    clusterStep g C uv = Except.ok (stepB g C uv) := by
  unfold clusterStep stepB bernstein
  rw [if_neg (by push_neg; exact ⟨h1, h2⟩)]
  show (if bernsteinB g uv.1 uv.2 = false then
      (if C = [] ∨ uv.1 ∉ C.getLastD [] then pure (C ++ [[uv.1]])
       else pure (C ++ [[uv.2]]) : Except Err (List (List α)))
    else
      if C ≠ [] ∧ uv.1 ∈ C.getLastD [] then
        pure (C.dropLast ++ [C.getLastD [] ++ [uv.2]])
      else pure (C ++ [[uv.1, uv.2]])) = _
  by_cases hb : bernsteinB g uv.1 uv.2 = false
  · rw [if_pos hb, if_pos hb]
    by_cases hc : C = [] ∨ uv.1 ∉ C.getLastD []
    · rw [if_pos hc, if_pos hc]; rfl
    · rw [if_neg hc, if_neg hc]; rfl
  · rw [if_neg hb, if_neg hb]
    by_cases hc : C ≠ [] ∧ uv.1 ∈ C.getLastD []
    · rw [if_pos hc, if_pos hc]; rfl
    · rw [if_neg hc, if_neg hc]; rfl

theorem foldlM_clusterStep (g : Graph α β) :
    ∀ (ws : List (α × α)) (C : List (List α)),
      (∀ p ∈ ws, p.1 ∈ g.nodes ∧ p.2 ∈ g.nodes) →
      ws.foldlM (clusterStep g) C = Except.ok (ws.foldl (stepB g) C)
  | [], C, _ => rfl
  | w :: ws, C, h => by
    have hw := h w (List.mem_cons_self _ _)
    rw [List.foldl_cons, List.foldlM_cons, clusterStep_eq_stepB g C w hw.1 hw.2]
    show ws.foldlM (clusterStep g) (stepB g C w) = _
    exact foldlM_clusterStep g ws _ (fun p hp => h p (List.mem_cons_of_mem _ hp))

theorem getLastD_mem_flatten {C : List (List α)} {x : α} (h : x ∈ C.getLastD []) :
    x ∈ C.flatten := by
  induction C using List.reverseRecOn with
  | nil => simp at h
  | append_singleton C' c _ =>
    rw [List.getLastD_concat] at h
    rw [List.flatten_append, List.mem_append]
    exact Or.inr (by simpa using h)

theorem stepB_cases (g : Graph α β) (C : List (List α)) (x y : α) (done : List α)
    (hC : C.flatten = done ∨
      (C.flatten = done ++ [x] ∧ ∃ C' c, C = C' ++ [c] ∧ x ∈ c))
    (hxdone : x ∉ done) :
    (stepB g C (x, y)).flatten = done ++ [x] ∨
    ((stepB g C (x, y)).flatten = (done ++ [x]) ++ [y] ∧
      ∃ C' c, stepB g C (x, y) = C' ++ [c] ∧ y ∈ c) := by
  unfold stepB
  rcases hC with hL | hR
  · have hxlast : x ∉ C.getLastD [] := fun hx => hxdone (hL ▸ getLastD_mem_flatten hx)
    by_cases hb : bernsteinB g x y = false
    · rw [if_pos hb, if_pos (Or.inr hxlast)]
      left
      simp [List.flatten_append, hL]
    · rw [if_neg hb, if_neg (fun hand => hxlast hand.2)]
      right
      exact ⟨by simp [List.flatten_append, hL], C, [x, y], rfl, by simp⟩
  · obtain ⟨hflat, C', c, hCeq, hxc⟩ := hR
    have hlast : C.getLastD [] = c := by
      rw [hCeq]; exact List.getLastD_concat _ _ _
    have hxlast : x ∈ C.getLastD [] := by rw [hlast]; exact hxc
    have hCne : C ≠ [] := by rw [hCeq]; simp
    by_cases hb : bernsteinB g x y = false
    · rw [if_pos hb, if_neg (not_or.mpr ⟨hCne, not_not_intro hxlast⟩)]
      right
      exact ⟨by simp [List.flatten_append, hflat], C, [y], rfl, by simp⟩
    · rw [if_neg hb, if_pos ⟨hCne, hxlast⟩]
      right
      have hdrop : C.dropLast = C' := by rw [hCeq]; exact List.dropLast_concat
      refine ⟨?_, C', C.getLastD [] ++ [y], by rw [hdrop], by simp⟩
      have hCflat : C.flatten = C'.flatten ++ c := by
        rw [hCeq]; simp [List.flatten_append]
      rw [hdrop, hlast,
        show (C' ++ [c ++ [y]]).flatten = C'.flatten ++ (c ++ [y]) by
          simp [List.flatten_append],
        ← List.append_assoc, ← hCflat, hflat]

theorem cluster_fold_flatten (g : Graph α β) :
    ∀ (rest : List α) (x : α) (done : List α) (C : List (List α)),
      (C.flatten = done ∨
        (C.flatten = done ++ [x] ∧ ∃ C' c, C = C' ++ [c] ∧ x ∈ c)) →
      (done ++ x :: rest).Nodup →
      ((window2 (x :: rest)).foldl (stepB g) C).flatten = done ++ x :: rest ∨
      ((window2 (x :: rest)).foldl (stepB g) C).flatten = (done ++ x :: rest).dropLast
  | [], x, done, C, hC, _ => by
    rw [show window2 [x] = ([] : List (α × α)) from rfl]
    simp only [List.foldl_nil]
    rcases hC with h | h
    · right
      rw [h, show done ++ [x] = done ++ [x] from rfl, List.dropLast_concat]
    · left
      exact h.1
  | y :: rest', x, done, C, hC, hnd => by
    have hxdone : x ∉ done := by
      rw [List.nodup_append] at hnd
      exact fun hx => hnd.2.2 hx (List.mem_cons_self _ _)
    have hstep := stepB_cases g C x y done hC hxdone
    have hnd' : ((done ++ [x]) ++ y :: rest').Nodup := by
      rwa [List.append_assoc]
    have ih := cluster_fold_flatten g rest' y (done ++ [x]) (stepB g C (x, y)) hstep hnd'
    rw [show window2 (x :: y :: rest') = (x, y) :: window2 (y :: rest') from rfl,
      List.foldl_cons]
    have heq : (done ++ [x]) ++ y :: rest' = done ++ x :: y :: rest' := by
      rw [List.append_assoc]; rfl
    rcases ih with h | h
    · left; rw [h, heq]
    · right; rw [h, heq]

theorem cluster_fold_flatten' (g : Graph α β) (ord : List α) (hnd : ord.Nodup) :
    ((window2 ord).foldl (stepB g) []).flatten = ord ∨
    ((window2 ord).foldl (stepB g) []).flatten = ord.dropLast := by
  cases ord with
  | nil => left; rfl
  | cons x rest =>
    have h := cluster_fold_flatten g rest x [] [] (Or.inl rfl) (by simpa using hnd)
    simpa using h

theorem clustering_flatten (g : Graph α β) (s : List (List α)) (hnd : g.nodes.Nodup)
    (h : clustering g = Except.ok s) :
    s.flatten = (topoPair g).1 ∧ List.Perm (topoPair g).1 g.nodes := by
  unfold clustering topologicalSort at h
  by_cases he : (topoPair g).2.isEmpty = true
  case neg =>
    rw [if_neg he] at h
    simp [Bind.bind, Except.bind] at h
  case pos =>
    rw [if_pos he] at h
    have hperm : List.Perm (topoPair g).1 g.nodes := topoPair_perm g he
    have hordnd : (topoPair g).1.Nodup := hperm.nodup_iff.mpr hnd
    have hsub : ∀ p ∈ window2 (topoPair g).1, p.1 ∈ g.nodes ∧ p.2 ∈ g.nodes :=
      fun p hp => ⟨hperm.subset (window2_mem _ p hp).1,
        hperm.subset (window2_mem _ p hp).2⟩
    rw [show ((Except.ok (topoPair g).1 : Except Err (List α)) >>= fun order =>
        (window2 order).foldlM (clusterStep g) [] >>= fun clusters =>
        if clusters.length ≤ g.nodes.length then
          if clusters.flatten.length = g.nodes.length then pure clusters
          else throw .assertionFailed
        else throw .assertionFailed) =
        ((window2 (topoPair g).1).foldlM (clusterStep g) [] >>= fun clusters =>
        if clusters.length ≤ g.nodes.length then
          if clusters.flatten.length = g.nodes.length then pure clusters
          else throw .assertionFailed
        else throw .assertionFailed) from rfl] at h
    rw [foldlM_clusterStep g _ [] hsub] at h
    rw [show (((Except.ok ((window2 (topoPair g).1).foldl (stepB g) []) :
        Except Err (List (List α))) >>= fun clusters =>
        if clusters.length ≤ g.nodes.length then
          if clusters.flatten.length = g.nodes.length then pure clusters
          else throw .assertionFailed
        else throw .assertionFailed)) =
        (if ((window2 (topoPair g).1).foldl (stepB g) []).length ≤ g.nodes.length then
          if ((window2 (topoPair g).1).foldl (stepB g) []).flatten.length =
              g.nodes.length then
            pure ((window2 (topoPair g).1).foldl (stepB g) [])
          else throw .assertionFailed
        else throw .assertionFailed) from rfl] at h
    split_ifs at h with h1 h2
    · have hs := Except.ok.inj h
      subst hs
      refine ⟨?_, hperm⟩
      rcases cluster_fold_flatten' g (topoPair g).1 hordnd with hf | hf
      · exact hf
      · have hlen : ((window2 (topoPair g).1).foldl (stepB g) []).flatten.length =
            (topoPair g).1.length := by
          rw [h2, hperm.length_eq]
        have hz : (topoPair g).1.length = 0 := by
          rw [hf, List.length_dropLast] at hlen
          omega
        have hnil : (topoPair g).1 = [] := List.eq_nil_of_length_eq_zero hz
        rw [hf, hnil]
        rfl

/-- The reader (consumer) task list recorded for artifact `k`
(`links[k]['inputs']`), or `[]` when `k` has no entry. -/
def readersOf (ls : List (β × List α × List α)) (k : β) : List α :=
  ((ls.find? (fun e => decide (e.1 = k))).map (fun e => e.2.1)).getD []

/-- The writer (producer) task list recorded for artifact `k`
(`links[k]['outputs']`), or `[]` when `k` has no entry. -/
def writersOf (ls : List (β × List α × List α)) (k : β) : List α :=
  ((ls.find? (fun e => decide (e.1 = k))).map (fun e => e.2.2)).getD []

/-- Some record of the batch names task `s` with artifact `k` among its inputs. -/
def readsRec (l : List (α × List β × List β)) (s : α) (k : β) : Prop :=
  ∃ r ∈ l, r.1 = s ∧ k ∈ r.2.1

/-- Some record of the batch names task `t` with artifact `k` among its outputs. -/
def writesRec (l : List (α × List β × List β)) (t : α) (k : β) : Prop :=
  ∃ r ∈ l, r.1 = t ∧ k ∈ r.2.2

/-- The artifact keys of the links table are duplicate-free (Python dict keys). -/
def keysND (ls : List (β × List α × List α)) : Prop :=
  (ls.map (·.1)).Nodup

theorem find?_map_fst {κ δ : Type _} [DecidableEq κ] {f : κ × δ → κ × δ}
    (hf : ∀ e, (f e).1 = e.1) :
    ∀ (ls : List (κ × δ)) (k : κ),
      (ls.map f).find? (fun e => decide (e.1 = k)) =
        (ls.find? (fun e => decide (e.1 = k))).map f
  | [], _ => rfl
  | e :: ls, k => by
    rw [List.map_cons]
    by_cases he : e.1 = k
    · rw [List.find?_cons_of_pos _ (by simp [hf, he]),
        List.find?_cons_of_pos _ (by simp [he])]
      rfl
    · rw [List.find?_cons_of_neg _ (by simp [hf, he]),
        List.find?_cons_of_neg _ (by simp [he])]
      exact find?_map_fst hf ls k

theorem mem_keys_iff_find?_isSome {κ δ : Type _} [DecidableEq κ]
    (ls : List (κ × δ)) (k : κ) :
    k ∈ ls.map (·.1) ↔ (ls.find? (fun e => decide (e.1 = k))).isSome = true := by
  rw [List.find?_isSome]
  constructor
  · intro h
    obtain ⟨e, he, he1⟩ := List.mem_map.mp h
    exact ⟨e, he, by simp [he1]⟩
  · intro ⟨e, he, hp⟩
    exact List.mem_map.mpr ⟨e, he, by simpa using hp⟩

theorem readersOf_addReader_same (k : β) (n : α) (ls : List (β × List α × List α)) :
    readersOf (addReader k n ls) k = readersOf ls k ++ [n] := by
  unfold addReader readersOf
  by_cases hk : k ∈ ls.map (·.1)
  · rw [if_pos hk, find?_map_fst (by intro e; by_cases h : e.1 = k <;> simp [h])]
    obtain ⟨e, he⟩ := Option.isSome_iff_exists.mp ((mem_keys_iff_find?_isSome ls k).mp hk)
    have he1 : e.1 = k := by simpa using List.find?_some he
    rw [he]
    simp [he1]
  · rw [if_neg hk, List.find?_append]
    have hnone : ls.find? (fun e => decide (e.1 = k)) = none := by
      cases h : ls.find? (fun e => decide (e.1 = k)) with
      | none => rfl
      | some e =>
        exact absurd ((mem_keys_iff_find?_isSome ls k).mpr (by simp [h])) hk
    rw [hnone]
    simp

theorem readersOf_addReader_ne {k' k : β} (hne : k' ≠ k) (n : α)
    (ls : List (β × List α × List α)) :
    readersOf (addReader k' n ls) k = readersOf ls k := by
  unfold addReader readersOf
  by_cases hk : k' ∈ ls.map (·.1)
  · rw [if_pos hk, find?_map_fst (by intro e; by_cases h : e.1 = k' <;> simp [h])]
    cases h : ls.find? (fun e => decide (e.1 = k)) with
    | none => rfl
    | some e =>
      have he1 : e.1 = k := by simpa using List.find?_some h
      have : ¬ e.1 = k' := fun hh => hne (hh ▸ he1)
      simp only [Option.map_some']
      rw [show (if e.1 = k' then (e.1, e.2.1 ++ [n], e.2.2) else e) = e from if_neg this]
  · rw [if_neg hk, List.find?_append]
    cases h : ls.find? (fun e => decide (e.1 = k)) with
    | none => simp [hne]
    | some e => simp

theorem writersOf_addReader (k' k : β) (n : α) (ls : List (β × List α × List α)) :
    writersOf (addReader k' n ls) k = writersOf ls k := by
  unfold addReader writersOf
  by_cases hk : k' ∈ ls.map (·.1)
  · rw [if_pos hk, find?_map_fst (by intro e; by_cases h : e.1 = k' <;> simp [h])]
    cases h : ls.find? (fun e => decide (e.1 = k)) with
    | none => rfl
    | some e =>
      simp only [Option.map_some']
      by_cases he : e.1 = k' <;> simp [he]
  · rw [if_neg hk, List.find?_append]
    cases h : ls.find? (fun e => decide (e.1 = k)) with
    | none =>
      by_cases hkk : k' = k
      · subst hkk
        have : ((decide ((k', ([n] : List α), ([] : List α)).1 = k')) : Bool) = true := by
          simp
        simp
      · simp [hkk]
    | some e => simp

theorem writersOf_addWriter_same (k : β) (n : α) (ls : List (β × List α × List α)) :
    writersOf (addWriter k n ls) k = writersOf ls k ++ [n] := by
  unfold addWriter writersOf
  by_cases hk : k ∈ ls.map (·.1)
  · rw [if_pos hk, find?_map_fst (by intro e; by_cases h : e.1 = k <;> simp [h])]
    obtain ⟨e, he⟩ := Option.isSome_iff_exists.mp ((mem_keys_iff_find?_isSome ls k).mp hk)
    have he1 : e.1 = k := by simpa using List.find?_some he
    rw [he]
    simp [he1]
  · rw [if_neg hk, List.find?_append]
    have hnone : ls.find? (fun e => decide (e.1 = k)) = none := by
      cases h : ls.find? (fun e => decide (e.1 = k)) with
      | none => rfl
      | some e =>
        exact absurd ((mem_keys_iff_find?_isSome ls k).mpr (by simp [h])) hk
    rw [hnone]
    simp

theorem writersOf_addWriter_ne {k' k : β} (hne : k' ≠ k) (n : α)
    (ls : List (β × List α × List α)) :
    writersOf (addWriter k' n ls) k = writersOf ls k := by
  unfold addWriter writersOf
  by_cases hk : k' ∈ ls.map (·.1)
  · rw [if_pos hk, find?_map_fst (by intro e; by_cases h : e.1 = k' <;> simp [h])]
    cases h : ls.find? (fun e => decide (e.1 = k)) with
    | none => rfl
    | some e =>
      have he1 : e.1 = k := by simpa using List.find?_some h
      have : ¬ e.1 = k' := fun hh => hne (hh ▸ he1)
      simp only [Option.map_some']
      rw [show (if e.1 = k' then (e.1, e.2.1, e.2.2 ++ [n]) else e) = e from if_neg this]
  · rw [if_neg hk, List.find?_append]
    cases h : ls.find? (fun e => decide (e.1 = k)) with
    | none => simp [hne]
    | some e => simp

theorem readersOf_addWriter (k' k : β) (n : α) (ls : List (β × List α × List α)) :
    readersOf (addWriter k' n ls) k = readersOf ls k := by
  unfold addWriter readersOf
  by_cases hk : k' ∈ ls.map (·.1)
  · rw [if_pos hk, find?_map_fst (by intro e; by_cases h : e.1 = k' <;> simp [h])]
    cases h : ls.find? (fun e => decide (e.1 = k)) with
    | none => rfl
    | some e =>
      simp only [Option.map_some']
      by_cases he : e.1 = k' <;> simp [he]
  · rw [if_neg hk, List.find?_append]
    cases h : ls.find? (fun e => decide (e.1 = k)) with
    | none =>
      by_cases hkk : k' = k
      · subst hkk; simp
      · simp [hkk]
    | some e => simp

theorem mem_readersOf_reader_fold (m : α) :
    ∀ (ins : List β) (ls : List (β × List α × List α)) (k : β) (n : α),
      (n ∈ readersOf (ins.foldl (fun ls' i => addReader i m ls') ls) k ↔
        n ∈ readersOf ls k ∨ (m = n ∧ k ∈ ins))
  | [], ls, k, n => by simp
  | i :: ins, ls, k, n => by
    rw [List.foldl_cons, mem_readersOf_reader_fold m ins (addReader i m ls) k n]
    by_cases hik : i = k
    · subst hik
      rw [readersOf_addReader_same]
      simp [List.mem_append, eq_comm]
      tauto
    · rw [readersOf_addReader_ne hik]
      have hki : ¬ k = i := fun h => hik h.symm
      simp only [List.mem_cons]
      tauto

theorem writersOf_reader_fold (m : α) :
    ∀ (ins : List β) (ls : List (β × List α × List α)) (k : β),
      writersOf (ins.foldl (fun ls' i => addReader i m ls') ls) k = writersOf ls k
  | [], _, _ => rfl
  | i :: ins, ls, k => by
    rw [List.foldl_cons, writersOf_reader_fold m ins _ k, writersOf_addReader]

theorem mem_writersOf_writer_fold (m : α) :
    ∀ (outs : List β) (ls : List (β × List α × List α)) (k : β) (n : α),
      (n ∈ writersOf (outs.foldl (fun ls' o => addWriter o m ls') ls) k ↔
        n ∈ writersOf ls k ∨ (m = n ∧ k ∈ outs))
  | [], ls, k, n => by simp
  | o :: outs, ls, k, n => by
    rw [List.foldl_cons, mem_writersOf_writer_fold m outs (addWriter o m ls) k n]
    by_cases hok : o = k
    · subst hok
      rw [writersOf_addWriter_same]
      simp [List.mem_append, eq_comm]
      tauto
    · rw [writersOf_addWriter_ne hok]
      have hko : ¬ k = o := fun h => hok h.symm
      simp only [List.mem_cons]
      tauto

theorem readersOf_writer_fold (m : α) :
    ∀ (outs : List β) (ls : List (β × List α × List α)) (k : β),
      readersOf (outs.foldl (fun ls' o => addWriter o m ls') ls) k = readersOf ls k
  | [], _, _ => rfl
  | o :: outs, ls, k => by
    rw [List.foldl_cons, readersOf_writer_fold m outs _ k, readersOf_addWriter]

theorem mem_readersOf_collect :
    ∀ (l : List (α × List β × List β)) (ls : List (β × List α × List α)) (k : β) (n : α),
      (n ∈ readersOf (l.foldl (fun ls r =>
          r.2.2.foldl (fun ls' o => addWriter o r.1 ls')
            (r.2.1.foldl (fun ls' i => addReader i r.1 ls') ls)) ls) k ↔
        n ∈ readersOf ls k ∨ readsRec l n k)
  | [], ls, k, n => by simp [readsRec]
  | r :: l, ls, k, n => by
    rw [List.foldl_cons, mem_readersOf_collect l _ k n, readersOf_writer_fold,
      mem_readersOf_reader_fold]
    simp only [readsRec, List.mem_cons, exists_eq_or_imp]
    tauto

theorem mem_writersOf_collect :
    ∀ (l : List (α × List β × List β)) (ls : List (β × List α × List α)) (k : β) (n : α),
      (n ∈ writersOf (l.foldl (fun ls r =>
          r.2.2.foldl (fun ls' o => addWriter o r.1 ls')
            (r.2.1.foldl (fun ls' i => addReader i r.1 ls') ls)) ls) k ↔
        n ∈ writersOf ls k ∨ writesRec l n k)
  | [], ls, k, n => by simp [writesRec]
  | r :: l, ls, k, n => by
    rw [List.foldl_cons, mem_writersOf_collect l _ k n, mem_writersOf_writer_fold,
      writersOf_reader_fold]
    simp only [writesRec, List.mem_cons, exists_eq_or_imp]
    tauto

theorem mem_readersOf_collectLinks (l : List (α × List β × List β)) (k : β) (n : α) :
    n ∈ readersOf (collectLinks l) k ↔ readsRec l n k := by
  rw [collectLinks, mem_readersOf_collect]
  simp [readersOf]

theorem mem_writersOf_collectLinks (l : List (α × List β × List β)) (k : β) (n : α) :
    n ∈ writersOf (collectLinks l) k ↔ writesRec l n k := by
  rw [collectLinks, mem_writersOf_collect]
  simp [writersOf]

theorem keysND_addReader (k : β) (n : α) {ls : List (β × List α × List α)}
    (h : keysND ls) : keysND (addReader k n ls) := by
  unfold addReader keysND
  by_cases hk : k ∈ ls.map (·.1)
  · rw [if_pos hk]
    have : (ls.map (fun ent =>
        if ent.1 = k then (ent.1, ent.2.1 ++ [n], ent.2.2) else ent)).map (·.1) =
        ls.map (·.1) := by
      rw [List.map_map]
      apply List.map_congr_left
      intro e _
      by_cases he : e.1 = k <;> simp [he]
    rw [this]
    exact h
  · rw [if_neg hk]
    have h' : (ls.map (fun e => e.1)).Nodup := h
    simp only [List.map_append, List.map_cons, List.map_nil]
    rw [List.nodup_append]
    refine ⟨h', List.nodup_singleton _, ?_⟩
    intro a ha hak
    simp only [List.mem_singleton] at hak
    exact hk (hak ▸ ha)

theorem keysND_addWriter (k : β) (n : α) {ls : List (β × List α × List α)}
    (h : keysND ls) : keysND (addWriter k n ls) := by
  unfold addWriter keysND
  by_cases hk : k ∈ ls.map (·.1)
  · rw [if_pos hk]
    have : (ls.map (fun ent =>
        if ent.1 = k then (ent.1, ent.2.1, ent.2.2 ++ [n]) else ent)).map (·.1) =
        ls.map (·.1) := by
      rw [List.map_map]
      apply List.map_congr_left
      intro e _
      by_cases he : e.1 = k <;> simp [he]
    rw [this]
    exact h
  · rw [if_neg hk]
    have h' : (ls.map (fun e => e.1)).Nodup := h
    simp only [List.map_append, List.map_cons, List.map_nil]
    rw [List.nodup_append]
    refine ⟨h', List.nodup_singleton _, ?_⟩
    intro a ha hak
    simp only [List.mem_singleton] at hak
    exact hk (hak ▸ ha)

theorem keysND_collectLinks (l : List (α × List β × List β)) :
    keysND (collectLinks l) := by
  unfold collectLinks
  apply foldl_preserve (P := keysND)
  · intro ls r h
    apply foldl_preserve (P := keysND)
    · intro ls' o h'
      exact keysND_addWriter o r.1 h'
    · apply foldl_preserve (P := keysND)
      · intro ls' i h'
        exact keysND_addReader i r.1 h'
      · exact h
  · simp [keysND]

theorem exists_ent_iff :
    ∀ (ls : List (β × List α × List α)), keysND ls → ∀ (k : β) (s t : α),
      ((∃ ent ∈ ls, ent.1 = k ∧ s ∈ ent.2.1 ∧ t ∈ ent.2.2) ↔
        s ∈ readersOf ls k ∧ t ∈ writersOf ls k)
  | [], _, k, s, t => by simp [readersOf, writersOf]
  | e :: ls, hnd, k, s, t => by
    have hnd' : keysND ls := by
      unfold keysND at hnd ⊢
      exact (List.nodup_cons.mp (by simpa using hnd)).2
    have hekeys : e.1 ∉ ls.map (·.1) :=
      (List.nodup_cons.mp (by simpa [keysND] using hnd)).1
    by_cases he : e.1 = k
    · have hr : readersOf (e :: ls) k = e.2.1 := by
        unfold readersOf
        rw [List.find?_cons_of_pos _ (by simp [he])]
        rfl
      have hw : writersOf (e :: ls) k = e.2.2 := by
        unfold writersOf
        rw [List.find?_cons_of_pos _ (by simp [he])]
        rfl
      rw [hr, hw]
      constructor
      · rintro ⟨ent, hent, hk, hs, ht⟩
        rcases List.mem_cons.mp hent with rfl | hent
        · exact ⟨hs, ht⟩
        · exact absurd (List.mem_map.mpr ⟨ent, hent, hk.trans he.symm⟩) hekeys
      · intro ⟨hs, ht⟩
        exact ⟨e, List.mem_cons_self _ _, he, hs, ht⟩
    · have hr : readersOf (e :: ls) k = readersOf ls k := by
        unfold readersOf
        rw [List.find?_cons_of_neg _ (by simp [he])]
      have hw : writersOf (e :: ls) k = writersOf ls k := by
        unfold writersOf
        rw [List.find?_cons_of_neg _ (by simp [he])]
      rw [hr, hw, ← exists_ent_iff ls hnd' k s t]
      constructor
      · rintro ⟨ent, hent, hk, hrest⟩
        rcases List.mem_cons.mp hent with rfl | hent
        · exact absurd hk he
        · exact ⟨ent, hent, hk, hrest⟩
      · rintro ⟨ent, hent, hk, hrest⟩
        exact ⟨ent, List.mem_cons_of_mem _ hent, hk, hrest⟩

theorem linksOf_of_not_hasEdge {g : Graph α β} {t s : α} (h : ¬ hasEdge g t s) :
    linksOf g t s = [] := by
  unfold linksOf
  have : g.edges.find? (fun e => decide (e.1 = (t, s))) = none := by
    rw [List.find?_eq_none]
    intro e he hp
    exact h (List.mem_map.mpr ⟨e, he, by simpa using hp⟩)
  rw [this]
  rfl

theorem mem_linksOf_addEdgeLink {g : Graph α β} {t' s' t s : α} {k' k : β} :
    k ∈ linksOf (addEdgeLink g t' s' k') t s ↔
      k ∈ linksOf g t s ∨ (t' = t ∧ s' = s ∧ k' = k) := by
  unfold addEdgeLink
  by_cases hp : (t', s') ∈ edgeKeys g
  · rw [if_pos hp]
    unfold linksOf
    rw [show (⟨g.nodes, g.edges.map (fun e =>
        if e.1 = (t', s') then (e.1, if k' ∈ e.2 then e.2 else e.2 ++ [k']) else e)⟩ :
        Graph α β).edges = g.edges.map (fun e =>
        if e.1 = (t', s') then (e.1, if k' ∈ e.2 then e.2 else e.2 ++ [k']) else e)
      from rfl]
    rw [find?_map_fst (by intro e; by_cases h : e.1 = (t', s') <;> simp [h])]
    cases hfind : g.edges.find? (fun e => decide (e.1 = (t, s))) with
    | none =>
      simp only [Option.map_none', Option.getD_none, List.not_mem_nil, false_iff,
        not_or, false_or]
      rintro ⟨rfl, rfl, rfl⟩
      obtain ⟨ed, hed, hed1⟩ := List.mem_map.mp hp
      exact absurd (List.find?_eq_none.mp hfind ed hed) (by simp [hed1])
    | some e =>
      have he1 : e.1 = (t, s) := by simpa using List.find?_some hfind
      simp only [Option.map_some', Option.getD_some]
      by_cases hee : e.1 = (t', s')
      · rw [if_pos hee]
        have hts : t' = t ∧ s' = s := by
          have := he1 ▸ hee
          exact ⟨(Prod.mk.injEq _ _ _ _ ▸ this.symm).1, (Prod.mk.injEq _ _ _ _ ▸ this.symm).2⟩
        by_cases hk'e : k' ∈ e.2
        · simp only [if_pos hk'e]
          constructor
          · exact fun h => Or.inl h
          · rintro (h | ⟨_, _, rfl⟩)
            · exact h
            · exact hk'e
        · simp only [if_neg hk'e, List.mem_append, List.mem_singleton]
          constructor
          · rintro (h | rfl)
            · exact Or.inl h
            · exact Or.inr ⟨hts.1, hts.2, rfl⟩
          · rintro (h | ⟨_, _, rfl⟩)
            · exact Or.inl h
            · exact Or.inr rfl
      · rw [if_neg hee]
        constructor
        · exact fun h => Or.inl h
        · rintro (h | ⟨rfl, rfl, rfl⟩)
          · exact h
          · exact absurd he1 hee
  · rw [if_neg hp]
    unfold linksOf
    rw [show (⟨addNode (addNode g.nodes t') s', g.edges ++ [((t', s'), [k'])]⟩ :
        Graph α β).edges = g.edges ++ [((t', s'), [k'])] from rfl]
    rw [List.find?_append]
    cases hfind : g.edges.find? (fun e => decide (e.1 = (t, s))) with
    | none =>
      simp only [Option.none_or]
      by_cases hee : (t', s') = (t, s)
      · rw [List.find?_cons_of_pos _ (by simp [hee])]
        simp only [Option.map_some', Option.getD_some, Option.map_none',
          Option.getD_none, List.mem_singleton, List.not_mem_nil, false_or]
        constructor
        · rintro rfl
          exact ⟨(Prod.mk.injEq _ _ _ _ ▸ hee).1, (Prod.mk.injEq _ _ _ _ ▸ hee).2, rfl⟩
        · rintro ⟨_, _, rfl⟩
          rfl
      · rw [List.find?_cons_of_neg _ (by simp [hee])]
        simp only [List.find?_nil, Option.map_none', Option.getD_none,
          List.not_mem_nil, false_iff, not_or, false_or]
        rintro ⟨rfl, rfl, _⟩
        exact hee rfl
    | some e =>
      rw [show (some e).or (List.find? (fun e => decide (e.1 = (t, s)))
        [((t', s'), [k'])]) = some e from rfl]
      simp only [Option.map_some', Option.getD_some]
      constructor
      · exact fun h => Or.inl h
      · rintro (h | ⟨rfl, rfl, _⟩)
        · exact h
        · exact absurd (List.mem_map.mpr ⟨e, List.mem_of_find?_eq_some hfind,
            by simpa using List.find?_some hfind⟩) hp

theorem mem_linksOf_writer_fold {t s : α} {k : β} (src : α) (k' : β) :
    ∀ (ws : List α) (g : Graph α β),
      (k ∈ linksOf (ws.foldl (fun g'' target => addEdgeLink g'' target src k') g) t s ↔
        k ∈ linksOf g t s ∨ (t ∈ ws ∧ src = s ∧ k' = k))
  | [], g => by simp
  | w :: ws, g => by
    rw [List.foldl_cons, mem_linksOf_writer_fold src k' ws (addEdgeLink g w src k'),
      mem_linksOf_addEdgeLink]
    simp only [List.mem_cons]
    constructor
    · rintro ((h | ⟨rfl, rfl, rfl⟩) | ⟨hw, rfl, rfl⟩)
      · exact Or.inl h
      · exact Or.inr ⟨Or.inl rfl, rfl, rfl⟩
      · exact Or.inr ⟨Or.inr hw, rfl, rfl⟩
    · rintro (h | ⟨rfl | hw, rfl, rfl⟩)
      · exact Or.inl (Or.inl h)
      · exact Or.inl (Or.inr ⟨rfl, rfl, rfl⟩)
      · exact Or.inr ⟨hw, rfl, rfl⟩

theorem mem_linksOf_reader_fold {t s : α} {k : β} (k' : β) (ws : List α) :
    ∀ (rs : List α) (g : Graph α β),
      (k ∈ linksOf (rs.foldl (fun g' source =>
          ws.foldl (fun g'' target => addEdgeLink g'' target source k') g') g) t s ↔
        k ∈ linksOf g t s ∨ (s ∈ rs ∧ t ∈ ws ∧ k' = k))
  | [], g => by simp
  | r :: rs, g => by
    rw [List.foldl_cons, mem_linksOf_reader_fold k' ws rs _,
      mem_linksOf_writer_fold r k' ws g]
    simp only [List.mem_cons]
    constructor
    · rintro ((h | ⟨hw, rfl, rfl⟩) | ⟨hr, hw, rfl⟩)
      · exact Or.inl h
      · exact Or.inr ⟨Or.inl rfl, hw, rfl⟩
      · exact Or.inr ⟨Or.inr hr, hw, rfl⟩
    · rintro (h | ⟨rfl | hr, hw, rfl⟩)
      · exact Or.inl (Or.inl h)
      · exact Or.inl (Or.inr ⟨hw, rfl, rfl⟩)
      · exact Or.inr ⟨hr, hw, rfl⟩

theorem mem_linksOf_buildGraph_fold {t s : α} {k : β} :
    ∀ (entries : List (β × List α × List α)) (g : Graph α β),
      (k ∈ linksOf (entries.foldl (fun g ent =>
          ent.2.1.foldl (fun g' source =>
            ent.2.2.foldl (fun g'' target => addEdgeLink g'' target source ent.1) g') g)
          g) t s ↔
        k ∈ linksOf g t s ∨ ∃ ent ∈ entries, ent.1 = k ∧ s ∈ ent.2.1 ∧ t ∈ ent.2.2)
  | [], g => by simp
  | ent :: entries, g => by
    rw [List.foldl_cons, mem_linksOf_buildGraph_fold entries _,
      mem_linksOf_reader_fold ent.1 ent.2.2 ent.2.1 g]
    simp only [List.mem_cons, exists_eq_or_imp]
    constructor
    · rintro ((h | ⟨hr, hw, rfl⟩) | h)
      · exact Or.inl h
      · exact Or.inr (Or.inl ⟨rfl, hr, hw⟩)
      · exact Or.inr (Or.inr h)
    · rintro (h | (⟨hk, hr, hw⟩ | h))
      · exact Or.inl (Or.inl h)
      · exact Or.inl (Or.inr ⟨hr, hw, hk⟩)
      · exact Or.inr h

theorem mem_linksOf_rawGraph (l : List (α × List β × List β)) (t s : α) (k : β) :
    k ∈ linksOf (rawGraph l) t s ↔ writesRec l t k ∧ readsRec l s k := by
  rw [rawGraph, buildGraph, mem_linksOf_buildGraph_fold]
  rw [show linksOf (⟨[], []⟩ : Graph α β) t s = [] from rfl]
  simp only [List.not_mem_nil, false_or]
  rw [exists_ent_iff (collectLinks l) (keysND_collectLinks l) k s t]
  rw [mem_readersOf_collectLinks, mem_writersOf_collectLinks]
  exact and_comm

theorem links_ne_nil_rawGraph (l : List (α × List β × List β)) :
    ∀ e ∈ (rawGraph l).edges, e.2 ≠ [] := by
  rw [rawGraph, buildGraph]
  apply foldl_preserve (P := fun g : Graph α β => ∀ e ∈ g.edges, e.2 ≠ [])
  · intro g ent hg
    apply foldl_preserve (P := fun g : Graph α β => ∀ e ∈ g.edges, e.2 ≠ [])
    · intro g' source hg'
      apply foldl_preserve (P := fun g : Graph α β => ∀ e ∈ g.edges, e.2 ≠ [])
      · intro g'' target hg'' e he
        unfold addEdgeLink at he
        split at he
        · obtain ⟨ed, hed, hedf⟩ := List.mem_map.mp he
          subst hedf
          by_cases hh : ed.1 = (target, source)
          · rw [if_pos hh]
            have := hg'' ed hed
            by_cases hk : ent.1 ∈ ed.2 <;> simp [hk, this]
          · rw [if_neg hh]
            exact hg'' ed hed
        · rcases List.mem_append.mp he with he | he
          · exact hg'' e he
          · obtain rfl : e = ((target, source), [ent.1]) := by simpa using he
            simp
      · exact hg'
    · exact hg
  · simp

theorem hasEdge_iff_linksOf_ne_nil {g : Graph α β}
    (hinv : ∀ e ∈ g.edges, e.2 ≠ []) (t s : α) :
    hasEdge g t s ↔ linksOf g t s ≠ [] := by
  constructor
  · intro h
    obtain ⟨ed, hed, hed1⟩ := List.mem_map.mp h
    have : (g.edges.find? (fun e => decide (e.1 = (t, s)))).isSome = true :=
      List.find?_isSome.mpr ⟨ed, hed, by simp [hed1]⟩
    obtain ⟨e, he⟩ := Option.isSome_iff_exists.mp this
    have : linksOf g t s = e.2 := by unfold linksOf; rw [he]; rfl
    rw [this]
    exact hinv e (List.mem_of_find?_eq_some he)
  · intro h
    by_contra hne
    exact h (linksOf_of_not_hasEdge hne)

theorem hasEdge_rawGraph (l : List (α × List β × List β)) (t s : α) :
    hasEdge (rawGraph l) t s ↔ ∃ k, writesRec l t k ∧ readsRec l s k := by
  rw [hasEdge_iff_linksOf_ne_nil (links_ne_nil_rawGraph l) t s]
  constructor
  · intro h
    obtain ⟨k, hk⟩ := List.exists_mem_of_ne_nil _ h
    exact ⟨k, (mem_linksOf_rawGraph l t s k).mp hk⟩
  · rintro ⟨k, hk⟩
    intro hnil
    have := (mem_linksOf_rawGraph l t s k).mpr hk
    rw [hnil] at this
    exact List.not_mem_nil k this

/-- C1: the claim says `clustering` returns, for every acyclic graph with n ≥ 1
nodes, a schedule whose cluster sizes sum to n (count ≤ n).  On the acyclic
two-node chain `a → b` the scan produces `[[a]]`, node `b` is never scheduled,
and the code's own completeness assert (`"Unscheduled tasks found"`) fails, so
`clustering` raises `AssertionError` instead of returning such a schedule. -/
theorem claim1_chain_assert :
    clustering chainTwo = Except.error Err.assertionFailed := by
  rfl

/-- C2: the claim says a single-node graph clusters as `[[x]]` and the empty
graph as `[]`.  The code handles the empty graph (the window is empty and both
asserts pass on zero nodes), but on a single node the window is empty too, the
scan yields no clusters, and the completeness assert fails with
`AssertionError` instead of returning `[[x]]`. -/
theorem claim2_degenerate :
    clustering singleNode = Except.error Err.assertionFailed ∧
    clustering emptyGraph = Except.ok [] :=
  ⟨rfl, rfl⟩

/-- C3: running the Lineage Aggregator and Cycle Eliminator (`from_lineage`) on
the records `[(a,[1,2,3],[4,5,6]), (b,[4,5,6],[]), (c,[5],[])]` yields exactly
the edges `(a,b)` with link set `{4,5,6}` and `(a,c)` with link set `{5}`, and
no edge between `b` and `c`. -/
theorem claim3_lineage_example :
    (from_lineage lineageRecords).edges =
      [(("a", "b"), [4, 5, 6]), (("a", "c"), [5])] ∧
    ¬ hasEdge (from_lineage lineageRecords) "b" "c" ∧
    ¬ hasEdge (from_lineage lineageRecords) "c" "b" ∧
    (∀ k, k ∈ linksOf (from_lineage lineageRecords) "a" "b" ↔ k ∈ [4, 5, 6]) ∧
    (∀ k, k ∈ linksOf (from_lineage lineageRecords) "a" "c" ↔ k ∈ [5]) := by
  refine ⟨rfl, by decide, by decide, fun k => ?_, fun k => ?_⟩
  · rw [show linksOf (from_lineage lineageRecords) "a" "b" = [4, 5, 6] from rfl]
  · rw [show linksOf (from_lineage lineageRecords) "a" "c" = [5] from rfl]

/-- C4: for nodes present in the graph, the Bernstein check returns true iff
`(successors(a) ∪ {a}) ∩ (predecessors(b) ∪ {b}) = ∅` and
`(predecessors(a) ∪ {a}) ∩ (successors(b) ∪ {b}) = ∅`; the third
(output-dependency) condition is not part of the result. -/
theorem claim4_bernstein_iff (g : Graph α β) (a b : α)
    (ha : a ∈ g.nodes) (hb : b ∈ g.nodes) :
    bernstein g a b = Except.ok true ↔
      (insert a (succs g a).toFinset ∩ insert b (preds g b).toFinset = ∅ ∧
       insert a (preds g a).toFinset ∩ insert b (succs g b).toFinset = ∅) := by
  unfold bernstein
  rw [if_neg (by push_neg; exact ⟨ha, hb⟩)]
  have hok : (Except.ok (bernsteinB g a b) = (Except.ok true : Except Err Bool)) ↔
      bernsteinB g a b = true :=
    ⟨fun h => Except.ok.inj h, fun h => h ▸ rfl⟩
  rw [hok]
  have hBool : bernsteinB g a b = true ↔
      ((∀ x, (x = a ∨ x ∈ succs g a) → ¬(x = b ∨ x ∈ preds g b)) ∧
       (∀ x, (x = a ∨ x ∈ preds g a) → ¬(x = b ∨ x ∈ succs g b))) := by
    unfold bernsteinB
    simp only [Bool.and_eq_true, List.all_eq_true, decide_eq_true_eq, List.mem_cons]
  have hFin1 : (insert a (succs g a).toFinset ∩ insert b (preds g b).toFinset =
      (∅ : Finset α)) ↔
      ∀ x, (x = a ∨ x ∈ succs g a) → ¬(x = b ∨ x ∈ preds g b) := by
    rw [Finset.eq_empty_iff_forall_not_mem]
    simp only [Finset.mem_inter, Finset.mem_insert, List.mem_toFinset, not_and]
  have hFin2 : (insert a (preds g a).toFinset ∩ insert b (succs g b).toFinset =
      (∅ : Finset α)) ↔
      ∀ x, (x = a ∨ x ∈ preds g a) → ¬(x = b ∨ x ∈ succs g b) := by
    rw [Finset.eq_empty_iff_forall_not_mem]
    simp only [Finset.mem_inter, Finset.mem_insert, List.mem_toFinset, not_and]
  rw [hBool, hFin1, hFin2]

/-- C4 witness: in `sharedConsumer` (edges `a → c` and `b → c`), nodes `a` and
`b` share only the downstream consumer `c` and are reported parallel-safe. -/
theorem claim4_witness : bernstein sharedConsumer "a" "b" = Except.ok true :=
  (claim4_bernstein_iff sharedConsumer "a" "b" (by decide) (by decide)).mpr (by decide)

/-- C5: for every batch of lineage records, the graph `from_lineage` returns
has no self-loop edge and no directed cycle. -/
theorem claim5_acyclic (records : List (α × List β × List β)) :
    (∀ v, (v, v) ∉ edgeKeys (from_lineage records)) ∧
    (∀ v, ¬ Relation.TransGen (edgeRel (from_lineage records)) v v) := by
  have hwf := wf_from_lineage records
  have hd : isDag (from_lineage records) = true := isDag_sanitize _
  have hacyc := isDag_acyclic _ hwf hd
  exact ⟨fun v hv => hacyc v (Relation.TransGen.single hv), hacyc⟩

/-- A task whose own output feeds its own input. -/
def selfLoopRecords : List (String × List Nat × List Nat) :=
  [("a", [1], [1])]

/-- C5 witness: for the task whose output feeds its own input, no self-loop
edge `(a, a)` survives and no cycle through `a` exists. -/
theorem claim5_witness :
    (("a", "a") ∉ edgeKeys (from_lineage selfLoopRecords)) ∧
    ¬ Relation.TransGen (edgeRel (from_lineage selfLoopRecords)) "a" "a" :=
  ⟨(claim5_acyclic selfLoopRecords).1 "a", (claim5_acyclic selfLoopRecords).2 "a"⟩

/-- C6: the Bernstein check fails with `NotFound` exactly when one of the two
nodes is absent from the graph; when both are present it returns a boolean and
never raises. -/
theorem claim6_notfound (g : Graph α β) (a b : α) :
    (bernstein g a b = Except.error Err.notFound ↔ (a ∉ g.nodes ∨ b ∉ g.nodes)) ∧
    ((a ∈ g.nodes ∧ b ∈ g.nodes) → ∃ r : Bool, bernstein g a b = Except.ok r) := by
  unfold bernstein
  by_cases h : a ∉ g.nodes ∨ b ∉ g.nodes
  · rw [if_pos h]
    refine ⟨⟨fun _ => h, fun _ => rfl⟩, fun hab => ?_⟩
    rcases h with h | h
    · exact absurd hab.1 h
    · exact absurd hab.2 h
  · rw [if_neg h]
    exact ⟨⟨fun he => Except.noConfusion he, fun hh => absurd hh h⟩,
      fun _ => ⟨bernsteinB g a b, rfl⟩⟩

/-- C6 witness: querying the absent node `zz` raises `NotFound`; querying two
present nodes returns a boolean. -/
theorem claim6_witness :
    bernstein sharedConsumer "a" "zz" = Except.error Err.notFound ∧
    ∃ r : Bool, bernstein sharedConsumer "a" "b" = Except.ok r :=
  ⟨(claim6_notfound sharedConsumer "a" "zz").1.mpr (by decide),
   (claim6_notfound sharedConsumer "a" "b").2 (by decide)⟩

/-- C7: the cycle-elimination loop terminates on every finite graph: whenever
the graph is still cyclic the discovered cycle removes at least one edge, so
the edge count strictly decreases, and within `edge count + 1` iterations the
loop stops with an acyclic graph. -/
theorem claim7_terminates (g : Graph α β) :
    (isDag g = false →
      (removeEdgesList g (findCycle g)).edges.length < g.edges.length) ∧
    ∃ g', whileCycles (g.edges.length + 1) g = some g' ∧ isDag g' = true :=
  ⟨removeCycle_lt g, whileCycles_terminates _ g (Nat.lt_succ_self _)⟩

/-- C7 witness: on the two-node cycle `a → b → a` an iteration strictly
decreases the edge count and the loop terminates acyclic. -/
theorem claim7_witness :
    ((removeEdgesList twoCycle (findCycle twoCycle)).edges.length <
      twoCycle.edges.length) ∧
    ∃ g', whileCycles (twoCycle.edges.length + 1) twoCycle = some g' ∧
      isDag g' = true :=
  ⟨(claim7_terminates twoCycle).1 (by decide), (claim7_terminates twoCycle).2⟩

/-- C8: the Lineage Aggregator's raw graph is invariant under permutation of
the record batch: the edge set and every edge's link set are the same. -/
theorem claim8_perm (l1 l2 : List (α × List β × List β)) (hp : List.Perm l1 l2)
    (t s : α) :
    (hasEdge (rawGraph l1) t s ↔ hasEdge (rawGraph l2) t s) ∧
    (∀ k, k ∈ linksOf (rawGraph l1) t s ↔ k ∈ linksOf (rawGraph l2) t s) := by
  have hw : ∀ (x : α) (k : β), writesRec l1 x k ↔ writesRec l2 x k := fun x k =>
    ⟨fun ⟨r, hr, h⟩ => ⟨r, hp.subset hr, h⟩,
     fun ⟨r, hr, h⟩ => ⟨r, hp.symm.subset hr, h⟩⟩
  have hr : ∀ (x : α) (k : β), readsRec l1 x k ↔ readsRec l2 x k := fun x k =>
    ⟨fun ⟨r, hrr, h⟩ => ⟨r, hp.subset hrr, h⟩,
     fun ⟨r, hrr, h⟩ => ⟨r, hp.symm.subset hrr, h⟩⟩
  constructor
  · rw [hasEdge_rawGraph, hasEdge_rawGraph]
    exact exists_congr fun k => and_congr (hw t k) (hr s k)
  · intro k
    rw [mem_linksOf_rawGraph, mem_linksOf_rawGraph]
    exact and_congr (hw t k) (hr s k)

/-- C8 witness: the example batch and its reversal aggregate to the same edge
`(a, b)` with the same link set. -/
theorem claim8_witness :
    (hasEdge (rawGraph lineageRecords) "a" "b" ↔
      hasEdge (rawGraph lineageRecordsRev) "a" "b") ∧
    (∀ k, k ∈ linksOf (rawGraph lineageRecords) "a" "b" ↔
      k ∈ linksOf (rawGraph lineageRecordsRev) "a" "b") :=
  claim8_perm lineageRecords lineageRecordsRev (by decide) "a" "b"

/-- C9: whenever `clustering` returns a schedule, every node of the graph
appears in exactly one cluster — none omitted, none twice (in one cluster or
across clusters). -/
theorem claim9_partition (g : Graph α β) (s : List (List α)) (hnd : g.nodes.Nodup)
    (h : clustering g = Except.ok s) :
    ∀ v ∈ g.nodes, s.flatten.count v = 1 := by
  obtain ⟨hflat, hperm⟩ := clustering_flatten g s hnd h
  intro v hv
  rw [hflat]
  exact List.count_eq_one_of_mem (hperm.nodup_iff.mpr hnd) (hperm.mem_iff.mpr hv)

/-- C9 witness: the edgeless two-node graph clusters as `[[a, b]]`, in which
node `a` appears exactly once. -/
theorem claim9_witness : ([["a", "b"]] : List (List String)).flatten.count "a" = 1 :=
  claim9_partition twoFree [["a", "b"]] (by decide)
    (show clustering twoFree = Except.ok [["a", "b"]] from rfl) "a" (by decide)

/-- C10: a task named in a lineage record can be absent from the node set of
the graph `from_lineage` builds — nodes arise only as edge endpoints, so the
record `("a", [], [])` yields a graph without node `a` and an empty schedule. -/
theorem claim10_absent_task :
    ("a" ∉ (from_lineage [("a", ([] : List Nat), ([] : List Nat))]).nodes) ∧
    clustering (from_lineage [("a", ([] : List Nat), ([] : List Nat))]) =
      Except.ok [] :=
  ⟨by decide, rfl⟩

end PrecGraph
